import Mathlib

/-
Verification of the CloudSync Obsidian plugin sync engine.

Shallow embedding of the relevant parts of the source:
  - SyncEngine.sync (deleted-path wipe guard, cursor advancement),
  - SyncEngine.buildManifest (hash cache),
  - SyncEngine.handleDownload / handleDelete,
  - SyncEngine.matchesPattern (glob matching),
  - SyncEngine.withRetry,
  - CryptoEngine.encrypt / decrypt, bytesToHex / hexToBytes,
  - CloudSyncAPI.arrayBufferToBase64.

Machine integers are modelled as Nat (JS numbers here are array lengths,
timestamps and byte values, all far below 2^53, so Nat arithmetic is exact).
Byte arrays (ArrayBuffer / Uint8Array) are modelled as List Nat with values
below 256 where that matters.
-/

namespace CloudSync

/-- Embedding of the SyncInstruction action tag (src/api.ts, SyncInstruction). -/
inductive SyncAction where
  | upload
  | download
  | conflict
  | delete
deriving DecidableEq, Repr

/-- Embedding of the local sync cursor: settings.lastSyncTime and
settings.lastSyncedPaths. -/
structure SyncCursor where
  lastSyncTime : Nat
  lastSyncedPaths : List String
deriving DecidableEq, Repr

/-- Outcome of executing one sync instruction in the instruction loop of
SyncEngine.sync: its action tag and whether its handler threw. -/
structure InstrResult where
  action : SyncAction
  failed : Bool
deriving DecidableEq, Repr

/-- Deleted-path computation of SyncEngine.sync: candidates are the paths
present after the last successful sync but absent from the current manifest;
if the candidate ratio exceeds 0.5 the whole set is discarded.  The float
comparison candidates.length / lastPaths.length <= 0.5 is modelled exactly
as 2 * candidates.length <= lastPaths.length (both operands are far below
2^53, so the comparison is exact). -/
def computeDeletedPaths (lastPaths currentPaths : List String) : List String :=
  if lastPaths.length > 0 then
    let candidates := lastPaths.filter (fun p => !(currentPaths.contains p))
    if 2 * candidates.length ≤ lastPaths.length then candidates else []
  else []

/-- Predicate for the downloadErrors counter in the instruction loop of
SyncEngine.sync: a failed instruction counts iff its action is download or
conflict. -/
def isDownloadClassFailure (r : InstrResult) : Bool :=
  r.failed && (r.action == SyncAction.download || r.action == SyncAction.conflict)

/-- Value of the downloadErrors counter after the instruction loop of
SyncEngine.sync. -/
def countDownloadErrors (results : List InstrResult) : Nat :=
  (results.filter isDownloadClassFailure).length

/-- Completion step of SyncEngine.sync: complete() is called and the cursor
advanced to (now, current manifest paths) iff downloadErrors = 0; otherwise
the cursor is left untouched.  The returned Bool records whether
api.complete() was called. -/
def finishCycle (cursor : SyncCursor) (now : Nat) (manifestPaths : List String)
    (results : List InstrResult) : SyncCursor × Bool :=
  if countDownloadErrors results = 0 then
    ({ lastSyncTime := now, lastSyncedPaths := manifestPaths }, true)
  else
    (cursor, false)

/-- Embedding of an ApiError as seen by SyncEngine.withRetry: a failure
carrying an optional HTTP status code. -/
structure ApiFailure where
  status : Option Nat
deriving DecidableEq, Repr

/-- Statuses that SyncEngine.withRetry never retries (401, 403, 404, 413). -/
def isNonRetryableStatus (st : Option Nat) : Bool :=
  match st with
  | some s => s == 401 || s == 403 || s == 404 || s == 413
  | none => false

/-- Embedding of the retry loop of SyncEngine.withRetry.  The wrapped async
operation is modelled as a function from the 1-based attempt number to its
outcome.  Returns the final outcome, the number of times the operation was
invoked, and the list of delays (in ms) slept between attempts. -/
def withRetryGo (fn : Nat → Except ApiFailure α) (maxAttempts attempt calls : Nat)
    (delays : List Nat) : Except ApiFailure α × Nat × List Nat :=
  match fn attempt with
  | Except.ok v => (Except.ok v, calls + 1, delays)
  | Except.error e =>
    if isNonRetryableStatus e.status then (Except.error e, calls + 1, delays)
    else if h : attempt < maxAttempts then
      withRetryGo fn maxAttempts (attempt + 1) (calls + 1) (delays ++ [attempt * 2000])
    else (Except.error e, calls + 1, delays)
termination_by maxAttempts - attempt

/-- Embedding of SyncEngine.withRetry with its default maxAttempts = 3. -/
def withRetry (fn : Nat → Except ApiFailure α) : Except ApiFailure α × Nat × List Nat :=
  withRetryGo fn 3 1 0 []

/-- Abstract model of the external Web Crypto primitives used by
CryptoEngine: kdf models PBKDF2-SHA256 key derivation from (passphrase,
salt hex); enc and dec model AES-256-GCM under (key, iv).  dec returning
none models the cipher rejecting a (key, iv, ciphertext) combination, i.e.
an authentication failure; any GCM ciphertext includes its auth tag, so enc
output is nonempty. -/
structure AECipher where
  kdf : String → String → List Nat
  enc : List Nat → List Nat → List Nat → List Nat
  dec : List Nat → List Nat → List Nat → Option (List Nat)

/-- Failure classes thrown by CryptoEngine.decrypt: the too-short guard
(thrown before the cipher runs) and the single opaque failure used for any
cipher rejection. -/
inductive DecryptError where
  | tooShort
  | authFailure
deriving DecidableEq, Repr

/-- IV length constant from src/crypto.ts. -/
def IV_LENGTH : Nat := 12

/-- Embedding of CryptoEngine.encrypt: derive the key from (passphrase,
salt), encrypt under the (randomly drawn) 12-byte iv, and prepend the iv to
the ciphertext. -/
def CryptoEngine.encrypt (c : AECipher) (iv data : List Nat)
    (passphrase saltHex : String) : List Nat :=
  iv ++ c.enc (c.kdf passphrase saltHex) iv data

/-- Embedding of CryptoEngine.decrypt: reject blobs shorter than
IV_LENGTH + 1, split off the iv, and map any cipher rejection to the single
authFailure class. -/
def CryptoEngine.decrypt (c : AECipher) (encryptedData : List Nat)
    (passphrase saltHex : String) : Except DecryptError (List Nat) :=
  if encryptedData.length < IV_LENGTH + 1 then Except.error DecryptError.tooShort
  else
    match c.dec (c.kdf passphrase saltHex) (encryptedData.take IV_LENGTH)
        (encryptedData.drop IV_LENGTH) with
    | some pt => Except.ok pt
    | none => Except.error DecryptError.authFailure

/-- Concrete stand-in authenticated cipher used to instantiate the abstract
model in witnesses: the key doubles as the authentication tag. -/
def toyCipher : AECipher where
  kdf := fun p s => [p.length + s.length + 1]
  enc := fun key _ data => data ++ key
  dec := fun key _ ct =>
    if key.length ≤ ct.length ∧ ct.drop (ct.length - key.length) = key then
      some (ct.take (ct.length - key.length))
    else none

/-- Remote store calls that mutate server state, as issued by the
instruction handlers. -/
inductive RemoteCall where
  | deleteFile (fileId : String)
  | fixHash (fileId : String) (hash : String)
deriving DecidableEq, Repr

/-- Local vault model: binary file contents keyed by path plus the folder
paths that exist.  Models the slice of the Obsidian vault API the sync
engine uses. -/
structure Vault where
  files : List (String × List Nat)
  folders : List String
deriving DecidableEq, Repr

/-- Lookup of a file by path (vault.getAbstractFileByPath restricted to
files). -/
def lookupFile : List (String × List Nat) → String → Option (List Nat)
  | [], _ => none
  | e :: rest, p => if e.1 = p then some e.2 else lookupFile rest p

/-- Lookup on a whole vault. -/
def Vault.getFile (v : Vault) (p : String) : Option (List Nat) :=
  lookupFile v.files p

/-- Overwrite of an existing file (vault.modifyBinary). -/
def modifyFileList : List (String × List Nat) → String → List Nat →
    List (String × List Nat)
  | [], _, _ => []
  | e :: rest, p, d => if e.1 = p then (p, d) :: rest else e :: modifyFileList rest p d

/-- Removal of a file (vault.delete). -/
def removeFileList : List (String × List Nat) → String → List (String × List Nat)
  | [], _ => []
  | e :: rest, p => if e.1 = p then rest else e :: removeFileList rest p

/-- Parent directory of a path, as computed by SyncEngine.ensureDirectory:
split on "/", nothing to do for bare file names, otherwise join all but the
last segment. -/
def parentDir (filePath : String) : Option String :=
  let parts := filePath.splitOn "/"
  if parts.length ≤ 1 then none
  else some (String.intercalate "/" parts.dropLast)

/-- Embedding of SyncEngine.ensureDirectory: create the parent folder when
no file or folder exists at that path. -/
def ensureDirectory (v : Vault) (filePath : String) : Vault :=
  match parentDir filePath with
  | none => v
  | some dirPath =>
    if (lookupFile v.files dirPath).isSome || v.folders.contains dirPath then v
    else { v with folders := v.folders ++ [dirPath] }

/-- Embedding of SyncEngine.handleDownload.  The remote fetch is modelled by
the download function (file id to payload); sha256Hex by hashFn; decryption
by decryptFn (used only when encryption is enabled); normalizePath by the
identity (paths are taken as already normalized).  Returns the new vault,
the mutating remote calls issued, and the written/not-written flag, or an
error when the instruction has no file id or decryption fails. -/
def handleDownload (hashFn : List Nat → String) (download : String → List Nat)
    (decryptFn : List Nat → Except DecryptError (List Nat)) (encEnabled : Bool)
    (v : Vault) (path : String) (fileId : Option String) :
    Except String (Vault × List RemoteCall × Bool) :=
  match fileId with
  | none => Except.error "No file_id for download"
  | some fid =>
    match (if encEnabled then decryptFn (download fid) else Except.ok (download fid)) with
    | Except.error _ => Except.error "Decryption failed"
    | Except.ok data =>
      match lookupFile v.files path with
      | some localData =>
        if hashFn localData = hashFn data then
          Except.ok (v, [RemoteCall.fixHash fid (hashFn localData)], false)
        else
          Except.ok ({ v with files := modifyFileList v.files path data }, [], true)
      | none =>
        let v2 := ensureDirectory v path
        Except.ok ({ v2 with files := v2.files ++ [(path, data)] }, [], true)

/-- Embedding of SyncEngine.handleDelete (part_002 lines 764-779): remove
the local file when present; no remote call of any kind is issued. -/
def handleDelete (v : Vault) (path : String) : Vault × List RemoteCall :=
  match lookupFile v.files path with
  | some _ => ({ v with files := removeFileList v.files path }, [])
  | none => (v, [])

/-- Hex digit character for a value below 16, as produced by JS
Number.toString(16) (lowercase: 0-9 then a-f). -/
def hexDigit (n : Nat) : Char :=
  if n < 10 then Char.ofNat (48 + n) else Char.ofNat (87 + n)

/-- Two-character lowercase hex rendering of a byte value below 256:
toString(16) padded with padStart(2, "0") as in bytesToHex. -/
def byteToHexChars (b : Nat) : List Char :=
  [hexDigit (b / 16), hexDigit (b % 16)]

/-- Embedding of bytesToHex (src/crypto.ts): map each byte to its
two-character hex form and join. -/
def bytesToHex : List Nat → List Char
  | [] => []
  | b :: rest => byteToHexChars b ++ bytesToHex rest

/-- Value of one hex character as consumed by JS parseInt(_, 16); both
cases are accepted there, and a character outside [0-9a-fA-F] makes
parseInt yield NaN, which a Uint8Array element assignment stores as 0. -/
def hexCharVal (c : Char) : Nat :=
  if 48 ≤ c.toNat ∧ c.toNat ≤ 57 then c.toNat - 48
  else if 97 ≤ c.toNat ∧ c.toNat ≤ 102 then c.toNat - 87
  else if 65 ≤ c.toNat ∧ c.toNat ≤ 70 then c.toNat - 55
  else 0

/-- Embedding of hexToBytes (src/crypto.ts): consume the string two
characters at a time, each pair parsed as one byte.  An odd-length input
makes the source throw up front (new Uint8Array(hex.length / 2) with a
non-integer length); the claims only concern even-length strings, and the
lone-character equation is unreachable there. -/
def hexToBytes : List Char → List Nat
  | c1 :: c2 :: rest => (16 * hexCharVal c1 + hexCharVal c2) :: hexToBytes rest
  | [c] => [hexCharVal c]
  | [] => []

/-- Lowercase hexadecimal digit alphabet (the image of bytesToHex). -/
def lowercaseHexDigits : List Char :=
  (List.range 16).map hexDigit

/-- Chunked binary-string construction from arrayBufferToBase64
(src/api.ts): the loop appends String.fromCharCode(...) of each 8192-byte
slice in order; the code units of the resulting binary string are exactly
the byte values. -/
def buildBinaryChunked : List Nat → List Nat
  | [] => []
  | b :: rest => (b :: rest).take 8192 ++ buildBinaryChunked ((b :: rest).drop 8192)
termination_by b => b.length
decreasing_by
  simp
  omega

/-- Base64 alphabet used by btoa. -/
def base64Chars : List Char :=
  "ABCDEFGHIJKLMNOPQRSTUVWXYZabcdefghijklmnopqrstuvwxyz0123456789+/".toList

/-- Base64 digit for a 6-bit value. -/
def base64Char (n : Nat) : Char := base64Chars.getD n 'A'

/-- Model of the platform btoa: standard RFC 4648 base64 over the code
units of the binary string, three bytes to four digits with padding. -/
def btoa : List Nat → List Char
  | [] => []
  | [b1] => [base64Char (b1 / 4), base64Char (b1 % 4 * 16), '=', '=']
  | [b1, b2] =>
    [base64Char (b1 / 4), base64Char (b1 % 4 * 16 + b2 / 16),
     base64Char (b2 % 16 * 4), '=']
  | b1 :: b2 :: b3 :: rest =>
    base64Char (b1 / 4) :: base64Char (b1 % 4 * 16 + b2 / 16) ::
      base64Char (b2 % 16 * 4 + b3 / 64) :: base64Char (b3 % 64) :: btoa rest

/-- Embedding of CloudSyncAPI.arrayBufferToBase64: build the binary string
in 8192-byte chunks, then base64-encode it. -/
def arrayBufferToBase64 (bytes : List Nat) : List Char :=
  btoa (buildBinaryChunked bytes)

/-- Token of the regex built by SyncEngine.matchesPattern: a literal
character (both escaped specials and plain characters), the .* emitted for
a double star, or the run of non-separators emitted for a single star. -/
inductive GTok where
  | lit (c : Char)
  | anyRun
  | nonSepRun
deriving DecidableEq, Repr

/-- Embedding of the glob-to-regex loop of SyncEngine.matchesPattern: a
double star becomes .* and additionally absorbs one directly following
slash; a single star becomes a non-separator run; every other character
(escaped if regex-special) becomes a literal.  Character classes are
modelled over all characters; vault paths contain no line terminators, so
the JS distinction between . and [^/] on newlines does not arise. -/
def globToTokens : List Char → List GTok
  | '*' :: '*' :: '/' :: rest => GTok.anyRun :: globToTokens rest
  | '*' :: '*' :: rest => GTok.anyRun :: globToTokens rest
  | '*' :: rest => GTok.nonSepRun :: globToTokens rest
  | c :: rest => GTok.lit c :: globToTokens rest
  | [] => []

/-- Literal tokenization of the glob grammar as the spec states it: a
double star is any run, a single star a non-separator run, everything else
literal — with no special treatment of a slash after a double star. -/
def specGlobTokens : List Char → List GTok
  | '*' :: '*' :: rest => GTok.anyRun :: specGlobTokens rest
  | '*' :: rest => GTok.nonSepRun :: specGlobTokens rest
  | c :: rest => GTok.lit c :: specGlobTokens rest
  | [] => []

/-- Fuel-indexed anchored matcher for a token list against a string, with
the standard backtracking semantics of the regex the source builds (anyRun
is the greedy-or-empty .*, nonSepRun is the class [^/]*).  Every recursive
call shrinks tokens + input by at least one, so any fuel above that sum is
enough; the fuel only makes the recursion structural. -/
def toksMatchGo : Nat → List GTok → List Char → Bool
  | 0, _, _ => false
  | _ + 1, [], [] => true
  | _ + 1, [], _ :: _ => false
  | _ + 1, GTok.lit _ :: _, [] => false
  | fuel + 1, GTok.lit c :: ts, x :: xs => c == x && toksMatchGo fuel ts xs
  | fuel + 1, GTok.anyRun :: ts, [] => toksMatchGo fuel ts []
  | fuel + 1, GTok.anyRun :: ts, x :: xs =>
    toksMatchGo fuel ts (x :: xs) || toksMatchGo fuel (GTok.anyRun :: ts) xs
  | fuel + 1, GTok.nonSepRun :: ts, [] => toksMatchGo fuel ts []
  | fuel + 1, GTok.nonSepRun :: ts, x :: xs =>
    toksMatchGo fuel ts (x :: xs) ||
      (!(x == '/') && toksMatchGo fuel (GTok.nonSepRun :: ts) xs)

/-- Anchored matcher with sufficient fuel. -/
def toksMatch (ts : List GTok) (s : List Char) : Bool :=
  toksMatchGo (ts.length + s.length + 1) ts s

/-- Embedding of SyncEngine.matchesPattern on character lists: a pattern
with a trailing slash matches by prefix (with or without the slash); an
exact match short-circuits; otherwise the glob is compiled and matched. -/
def matchesPatternL (path pattern : List Char) : Bool :=
  if pattern.getLast? == some '/' then
    pattern.isPrefixOf path || (pattern.dropLast).isPrefixOf path
  else if path == pattern then true
  else toksMatch (globToTokens pattern) path

/-- Embedding of SyncEngine.matchesPattern on strings. -/
def matchesPattern (path pattern : String) : Bool :=
  matchesPatternL path.data pattern.data

/-- Declarative semantics of the token grammar: a literal consumes exactly
its character, anyRun consumes any run of characters, nonSepRun any run of
non-separator characters. -/
inductive TokMatches : List GTok → List Char → Prop where
  | nil : TokMatches [] []
  | lit (c : Char) (ts : List GTok) (s : List Char) :
      TokMatches ts s → TokMatches (GTok.lit c :: ts) (c :: s)
  | anyRun (u : List Char) (ts : List GTok) (s : List Char) :
      TokMatches ts s → TokMatches (GTok.anyRun :: ts) (u ++ s)
  | nonSepRun (u : List Char) (ts : List GTok) (s : List Char) :
      (∀ c ∈ u, c ≠ '/') → TokMatches ts s →
      TokMatches (GTok.nonSepRun :: ts) (u ++ s)

/-- Glob matching exactly as the spec sentence reads: a pattern with a
trailing slash matches precisely the paths under that directory prefix
(the paths it is itself a prefix of); any other pattern matches per the
literal token grammar. -/
def SpecGlobMatch (path pattern : List Char) : Prop :=
  if pattern.getLast? = some '/' then pattern.isPrefixOf path = true
  else TokMatches (specGlobTokens pattern) path

/-- True when a path begins with a dot (path.startsWith of a dot). -/
def startsWithDot (path : List Char) : Bool :=
  match path with
  | '.' :: _ => true
  | _ => false

/-- Embedding of SyncEngine.shouldSkip: hidden dotfiles, the plugin's own
persisted data file, and user-configured exclude patterns. -/
def shouldSkip (patterns : List String) (path : String) : Bool :=
  startsWithDot path.data || path.data == "data.json".data ||
    patterns.any (fun pat => matchesPattern path pat)

/-- Embedding of the CachedFileInfo entries of the hash cache. -/
structure CachedFileInfo where
  hash : String
  mtime : Nat
  size : Nat
deriving DecidableEq, Repr

/-- A vault file as seen by buildManifest: its path, raw stat mtime in
milliseconds, stat size, and content; content = none models readBinary
throwing, which the source logs and skips. -/
structure VFile where
  path : String
  mtimeMs : Nat
  statSize : Nat
  content : Option (List Nat)
deriving DecidableEq, Repr

/-- Embedding of FileManifestEntry (src/api.ts). -/
structure ManifestEntry where
  path : String
  hash : String
  size : Nat
  modified_at : Nat
deriving DecidableEq, Repr

/-- Lookup in the hash cache (Map.get keyed by path). -/
def cacheGet : List (String × CachedFileInfo) → String → Option CachedFileInfo
  | [], _ => none
  | e :: rest, p => if e.1 = p then some e.2 else cacheGet rest p

/-- Update of the hash cache (Map.set keyed by path). -/
def cacheSet : List (String × CachedFileInfo) → String → CachedFileInfo →
    List (String × CachedFileInfo)
  | [], p, v => [(p, v)]
  | e :: rest, p, v => if e.1 = p then (p, v) :: rest else e :: cacheSet rest p v

/-- Accumulator of the buildManifest loop: the manifest built so far, the
seen-path set, the hash cache, and the paths whose content was read
(readBinary calls). -/
structure BuildAcc where
  manifest : List ManifestEntry
  seen : List String
  cache : List (String × CachedFileInfo)
  reads : List String
deriving DecidableEq, Repr

/-- Read-and-hash arm of the buildManifest loop: the file is new or
changed, so its content is read and hashed, the cache entry replaced, and
the manifest extended — unless reading fails, which only logs and skips. -/
def readAndHash (hashFn : List Nat → String) (acc : BuildAcc) (f : VFile)
    (mtime : Nat) : BuildAcc :=
  match f.content with
  | some content =>
    { manifest := acc.manifest ++
        [{ path := f.path, hash := hashFn content, size := content.length,
           modified_at := mtime }],
      seen := acc.seen ++ [f.path],
      cache := cacheSet acc.cache f.path
        { hash := hashFn content, mtime := mtime, size := content.length },
      reads := acc.reads ++ [f.path] }
  | none =>
    { acc with
      seen := acc.seen ++ [f.path],
      reads := acc.reads ++ [f.path] }

/-- One iteration of the buildManifest loop over a single file: skip
excluded paths, mark the path seen, and either reuse the cached hash (when
both cached mtime and size match the live stat) or read and hash.  The
stat mtime is converted to seconds by flooring division. -/
def processFile (hashFn : List Nat → String) (patterns : List String)
    (acc : BuildAcc) (f : VFile) : BuildAcc :=
  if shouldSkip patterns f.path then acc
  else
    match cacheGet acc.cache f.path with
    | some cached =>
      if cached.mtime = f.mtimeMs / 1000 ∧ cached.size = f.statSize then
        { acc with
          manifest := acc.manifest ++
            [{ path := f.path, hash := cached.hash, size := cached.size,
               modified_at := f.mtimeMs / 1000 }],
          seen := acc.seen ++ [f.path] }
      else readAndHash hashFn acc f (f.mtimeMs / 1000)
    | none => readAndHash hashFn acc f (f.mtimeMs / 1000)

/-- Embedding of SyncEngine.buildManifest: fold the loop over the vault
file list starting from the persistent cache, then purge cache entries
whose paths were not seen in this build.  Returns the manifest, the new
cache, and the list of paths whose content was read. -/
def buildManifest (hashFn : List Nat → String) (patterns : List String)
    (cache0 : List (String × CachedFileInfo)) (files : List VFile) :
    List ManifestEntry × List (String × CachedFileInfo) × List String :=
  let acc := files.foldl (processFile hashFn patterns)
    { manifest := [], seen := [], cache := cache0, reads := [] }
  (acc.manifest, acc.cache.filter (fun e => acc.seen.contains e.1), acc.reads)

end CloudSync

namespace CloudSync

/-- Helper: the retry loop invokes the operation at most
calls + 1 + (maxAttempts - attempt) times in total. -/
theorem withRetryGo_calls_le {α : Type} (fn : Nat → Except ApiFailure α)
    (maxAttempts : Nat) :
    ∀ (attempt calls : Nat) (delays : List Nat),
      (withRetryGo fn maxAttempts attempt calls delays).2.1 ≤
        calls + 1 + (maxAttempts - attempt) := by
  suffices h : ∀ (fuel attempt calls : Nat) (delays : List Nat),
      maxAttempts - attempt ≤ fuel →
      (withRetryGo fn maxAttempts attempt calls delays).2.1 ≤
        calls + 1 + (maxAttempts - attempt) by
    intro attempt calls delays
    exact h (maxAttempts - attempt) attempt calls delays le_rfl
  intro fuel
  induction fuel with
  | zero =>
    intro attempt calls delays hle
    rw [withRetryGo]
    cases hfn : fn attempt with
    | ok v => simp
    | error e =>
      simp only
      split
      · simp
      · split
        · omega
        · simp
  | succ n ih =>
    intro attempt calls delays hle
    rw [withRetryGo]
    cases hfn : fn attempt with
    | ok v => simp
    | error e =>
      simp only
      split
      · simp
      · split
        · rename_i hlt
          have := ih (attempt + 1) (calls + 1) (delays ++ [attempt * 2000]) (by omega)
          omega
        · simp

/-- Helper: a lookup misses exactly when no entry has the key. -/
theorem lookupFile_eq_none {l : List (String × List Nat)} {p : String} :
    lookupFile l p = none ↔ ∀ e ∈ l, e.1 ≠ p := by
  induction l with
  | nil => simp [lookupFile]
  | cons e rest ih =>
    by_cases he : e.1 = p
    · simp [lookupFile, he]
    · simp [lookupFile, he, ih]

/-- Helper: removing a key from a duplicate-free association list makes its
lookup miss. -/
theorem lookupFile_remove_self {l : List (String × List Nat)} {p : String}
    (hnd : (l.map Prod.fst).Nodup) :
    lookupFile (removeFileList l p) p = none := by
  induction l with
  | nil => rfl
  | cons e rest ih =>
    simp only [List.map_cons, List.nodup_cons] at hnd
    obtain ⟨hnotin, hnd2⟩ := hnd
    by_cases he : e.1 = p
    · simp only [removeFileList, if_pos he]
      apply lookupFile_eq_none.mpr
      intro f hf hfp
      exact hnotin (List.mem_map.mpr ⟨f, hf, hfp.trans he.symm⟩)
    · simp only [removeFileList, if_neg he, lookupFile, if_neg he]
      exact ih hnd2

/-- Helper: removing one key leaves lookups of other keys unchanged. -/
theorem lookupFile_remove_ne {l : List (String × List Nat)} {p q : String}
    (hne : q ≠ p) :
    lookupFile (removeFileList l p) q = lookupFile l q := by
  induction l with
  | nil => rfl
  | cons e rest ih =>
    simp only [removeFileList, lookupFile]
    by_cases he : e.1 = p
    · have heq : e.1 ≠ q := fun h => hne (h.symm.trans he)
      rw [if_pos he, if_neg heq]
    · rw [if_neg he]
      simp only [lookupFile]
      by_cases heq : e.1 = q
      · rw [if_pos heq, if_pos heq]
      · rw [if_neg heq, if_neg heq]
        exact ih

/-- Helper: overwriting a present key makes its lookup return the new
content. -/
theorem lookupFile_modify_self {l : List (String × List Nat)} {p : String}
    {d : List Nat} (h : (lookupFile l p).isSome = true) :
    lookupFile (modifyFileList l p d) p = some d := by
  induction l with
  | nil => simp [lookupFile] at h
  | cons e rest ih =>
    by_cases he : e.1 = p
    · simp [modifyFileList, if_pos he, lookupFile]
    · simp only [lookupFile, if_neg he] at h
      simp [modifyFileList, if_neg he, lookupFile, if_neg he, ih h]

/-- Helper: overwriting one key leaves lookups of other keys unchanged. -/
theorem lookupFile_modify_ne {l : List (String × List Nat)} {p q : String}
    {d : List Nat} (hne : q ≠ p) :
    lookupFile (modifyFileList l p d) q = lookupFile l q := by
  induction l with
  | nil => rfl
  | cons e rest ih =>
    simp only [modifyFileList, lookupFile]
    by_cases he : e.1 = p
    · have heq : e.1 ≠ q := fun h => hne (h.symm.trans he)
      have hpq : ¬p = q := fun h => hne h.symm
      rw [if_pos he]
      simp only [lookupFile]
      rw [if_neg hpq, if_neg heq]
    · rw [if_neg he]
      simp only [lookupFile]
      by_cases heq : e.1 = q
      · rw [if_pos heq, if_pos heq]
      · rw [if_neg heq, if_neg heq]
        exact ih

/-- Helper: appending a fresh entry makes its lookup return it. -/
theorem lookupFile_append_self {l : List (String × List Nat)} {p : String}
    {d : List Nat} (h : lookupFile l p = none) :
    lookupFile (l ++ [(p, d)]) p = some d := by
  induction l with
  | nil => simp [lookupFile]
  | cons e rest ih =>
    by_cases he : e.1 = p
    · simp [lookupFile, if_pos he] at h
    · simp only [lookupFile, if_neg he] at h
      simp [lookupFile, if_neg he, ih h]

/-- Helper: appending an entry for one key leaves other lookups unchanged. -/
theorem lookupFile_append_ne {l : List (String × List Nat)} {p q : String}
    {d : List Nat} (hne : q ≠ p) :
    lookupFile (l ++ [(p, d)]) q = lookupFile l q := by
  induction l with
  | nil =>
    have hpq : ¬p = q := fun h => hne h.symm
    simp only [List.nil_append, lookupFile, if_neg hpq]
  | cons e rest ih =>
    simp only [List.cons_append, lookupFile]
    by_cases he : e.1 = q
    · rw [if_pos he, if_pos he]
    · rw [if_neg he, if_neg he]
      exact ih

/-- Helper: ensureDirectory only touches folders, never file contents. -/
theorem ensureDirectory_files (v : Vault) (fp : String) :
    (ensureDirectory v fp).files = v.files := by
  unfold ensureDirectory
  cases parentDir fp with
  | none => rfl
  | some d => dsimp only; split <;> rfl

/-- Helper: parsing inverts printing on each hex digit value. -/
theorem hexCharVal_hexDigit : ∀ n < 16, hexCharVal (hexDigit n) = n := by decide

/-- Helper: printing inverts parsing on each lowercase hex digit, and the
parsed value is below 16. -/
theorem hexDigit_hexCharVal {c : Char} (hc : c ∈ lowercaseHexDigits) :
    hexDigit (hexCharVal c) = c ∧ hexCharVal c < 16 := by
  obtain ⟨n, hn, rfl⟩ := List.mem_map.mp hc
  have hn16 : n < 16 := List.mem_range.mp hn
  rw [hexCharVal_hexDigit n hn16]
  exact ⟨rfl, hn16⟩

/-- Helper: even-length strings of lowercase hex digits are reproduced by
print-after-parse. -/
theorem bytesToHex_hexToBytes : ∀ (s : List Char), s.length % 2 = 0 →
    (∀ c ∈ s, c ∈ lowercaseHexDigits) → bytesToHex (hexToBytes s) = s
  | [], _, _ => rfl
  | [c], h, _ => by simp at h
  | c1 :: c2 :: rest, h, hmem => by
    have h2 : rest.length % 2 = 0 := by
      simp only [List.length_cons] at h
      omega
    have hrm : ∀ c ∈ rest, c ∈ lowercaseHexDigits :=
      fun c hc => hmem c (by simp [hc])
    obtain ⟨hd1, hv1⟩ := hexDigit_hexCharVal (hmem c1 (by simp))
    obtain ⟨hd2, hv2⟩ := hexDigit_hexCharVal (hmem c2 (by simp))
    show bytesToHex ((16 * hexCharVal c1 + hexCharVal c2) :: hexToBytes rest) =
      c1 :: c2 :: rest
    rw [bytesToHex]
    rw [bytesToHex_hexToBytes rest h2 hrm]
    unfold byteToHexChars
    have hdiv : (16 * hexCharVal c1 + hexCharVal c2) / 16 = hexCharVal c1 := by
      omega
    have hmod : (16 * hexCharVal c1 + hexCharVal c2) % 16 = hexCharVal c2 := by
      omega
    rw [hdiv, hmod, hd1, hd2]
    rfl

/-- Helper: the 8192-byte chunk loop reassembles exactly the input bytes. -/
theorem buildBinaryChunked_eq (bytes : List Nat) :
    buildBinaryChunked bytes = bytes := by
  have key : ∀ (n : Nat) (l : List Nat), l.length ≤ n →
      buildBinaryChunked l = l := by
    intro n
    induction n with
    | zero =>
      intro l h
      have hnil : l = [] := List.eq_nil_of_length_eq_zero (Nat.le_zero.mp h)
      rw [hnil, buildBinaryChunked]
    | succ n ih =>
      intro l h
      cases l with
      | nil => rw [buildBinaryChunked]
      | cons x rest =>
        have hlen : ((x :: rest).drop 8192).length ≤ n := by
          simp only [List.length_drop, List.length_cons]
          simp only [List.length_cons] at h
          omega
        rw [buildBinaryChunked]
        rw [ih ((x :: rest).drop 8192) hlen]
        exact List.take_append_drop 8192 (x :: rest)
  exact key bytes.length bytes le_rfl

/-- C9: hexToBytes inverts bytesToHex on byte arrays, and bytesToHex
inverts hexToBytes on even-length lowercase-hex strings. -/
theorem hex_roundtrip (b : List Nat) (s : List Char) :
    ((∀ x ∈ b, x < 256) → hexToBytes (bytesToHex b) = b) ∧
    (s.length % 2 = 0 → (∀ c ∈ s, c ∈ lowercaseHexDigits) →
      bytesToHex (hexToBytes s) = s) := by
  constructor
  · intro hb
    induction b with
    | nil => rfl
    | cons x rest ih =>
      have hx : x < 256 := hb x (by simp)
      have hrest : ∀ y ∈ rest, y < 256 := fun y hy => hb y (by simp [hy])
      show hexToBytes (byteToHexChars x ++ bytesToHex rest) = x :: rest
      unfold byteToHexChars
      rw [List.cons_append, List.cons_append, List.nil_append]
      rw [hexToBytes]
      rw [hexCharVal_hexDigit (x / 16) (by omega),
        hexCharVal_hexDigit (x % 16) (by omega)]
      rw [ih hrest]
      rw [Nat.div_add_mod]
  · exact bytesToHex_hexToBytes s

/-- Witness for hex_roundtrip: a concrete byte array including 0x00 and
0xff survives the round trip, and the string dead is reproduced. -/
theorem hex_roundtrip_witness :
    hexToBytes (bytesToHex [0, 171, 255]) = [0, 171, 255] ∧
    bytesToHex (hexToBytes ['d', 'e', 'a', 'd']) = ['d', 'e', 'a', 'd'] := by
  constructor
  · exact (hex_roundtrip [0, 171, 255] []).1 (by decide)
  · exact (hex_roundtrip [] ['d', 'e', 'a', 'd']).2 (by decide) (by decide)

/-- C10: the chunked binary-string construction of arrayBufferToBase64
yields the same base64 string as encoding the whole buffer in a single
pass. -/
theorem chunked_base64_single_pass (bytes : List Nat) :
    arrayBufferToBase64 bytes = btoa bytes := by
  unfold arrayBufferToBase64
  rw [buildBinaryChunked_eq]

/-- Helper: the matcher result does not depend on the fuel once the fuel
exceeds tokens + input length. -/
theorem toksMatchGo_congr : ∀ (f1 f2 : Nat) (ts : List GTok) (s : List Char),
    ts.length + s.length < f1 → ts.length + s.length < f2 →
    toksMatchGo f1 ts s = toksMatchGo f2 ts s := by
  intro f1
  induction f1 with
  | zero =>
    intro f2 ts s h1 h2
    omega
  | succ k ih =>
    intro f2 ts s h1 h2
    match f2 with
    | 0 => omega
    | m + 1 =>
      match ts, s with
      | [], [] => rfl
      | [], x :: xs => rfl
      | GTok.lit c :: ts2, [] => rfl
      | GTok.lit c :: ts2, x :: xs =>
        show (c == x && toksMatchGo k ts2 xs) = (c == x && toksMatchGo m ts2 xs)
        simp only [List.length_cons] at h1 h2
        rw [ih m ts2 xs (by omega) (by omega)]
      | GTok.anyRun :: ts2, [] =>
        show toksMatchGo k ts2 [] = toksMatchGo m ts2 []
        simp only [List.length_cons, List.length_nil] at h1 h2
        exact ih m ts2 [] (by simp only [List.length_nil]; omega)
          (by simp only [List.length_nil]; omega)
      | GTok.anyRun :: ts2, x :: xs =>
        show (toksMatchGo k ts2 (x :: xs) || toksMatchGo k (GTok.anyRun :: ts2) xs)
          = (toksMatchGo m ts2 (x :: xs) || toksMatchGo m (GTok.anyRun :: ts2) xs)
        simp only [List.length_cons] at h1 h2
        rw [ih m ts2 (x :: xs) (by simp only [List.length_cons]; omega)
            (by simp only [List.length_cons]; omega),
          ih m (GTok.anyRun :: ts2) xs (by simp only [List.length_cons]; omega)
            (by simp only [List.length_cons]; omega)]
      | GTok.nonSepRun :: ts2, [] =>
        show toksMatchGo k ts2 [] = toksMatchGo m ts2 []
        simp only [List.length_cons, List.length_nil] at h1 h2
        exact ih m ts2 [] (by simp only [List.length_nil]; omega)
          (by simp only [List.length_nil]; omega)
      | GTok.nonSepRun :: ts2, x :: xs =>
        show (toksMatchGo k ts2 (x :: xs) ||
            (!(x == '/') && toksMatchGo k (GTok.nonSepRun :: ts2) xs))
          = (toksMatchGo m ts2 (x :: xs) ||
            (!(x == '/') && toksMatchGo m (GTok.nonSepRun :: ts2) xs))
        simp only [List.length_cons] at h1 h2
        rw [ih m ts2 (x :: xs) (by simp only [List.length_cons]; omega)
            (by simp only [List.length_cons]; omega),
          ih m (GTok.nonSepRun :: ts2) xs (by simp only [List.length_cons]; omega)
            (by simp only [List.length_cons]; omega)]

/-- Helper: step equation of toksMatch on a literal token. -/
theorem toksMatch_lit_cons (c : Char) (ts : List GTok) (x : Char)
    (xs : List Char) :
    toksMatch (GTok.lit c :: ts) (x :: xs) = (c == x && toksMatch ts xs) := by
  show (c == x && toksMatchGo ((GTok.lit c :: ts).length + (x :: xs).length) ts xs)
    = (c == x && toksMatchGo (ts.length + xs.length + 1) ts xs)
  rw [toksMatchGo_congr ((GTok.lit c :: ts).length + (x :: xs).length)
    (ts.length + xs.length + 1) ts xs (by simp only [List.length_cons]; omega)
    (by omega)]

/-- Helper: step equation of toksMatch for anyRun on the empty string. -/
theorem toksMatch_anyRun_nil (ts : List GTok) :
    toksMatch (GTok.anyRun :: ts) [] = toksMatch ts [] := by
  show toksMatchGo ((GTok.anyRun :: ts).length + ([] : List Char).length) ts []
    = toksMatchGo (ts.length + ([] : List Char).length + 1) ts []
  rw [toksMatchGo_congr ((GTok.anyRun :: ts).length + ([] : List Char).length)
    (ts.length + ([] : List Char).length + 1) ts []
    (by simp only [List.length_cons, List.length_nil]; omega)
    (by simp only [List.length_nil]; omega)]

/-- Helper: step equation of toksMatch for anyRun on a nonempty string. -/
theorem toksMatch_anyRun_cons (ts : List GTok) (x : Char) (xs : List Char) :
    toksMatch (GTok.anyRun :: ts) (x :: xs)
      = (toksMatch ts (x :: xs) || toksMatch (GTok.anyRun :: ts) xs) := by
  show (toksMatchGo ((GTok.anyRun :: ts).length + (x :: xs).length) ts (x :: xs) ||
      toksMatchGo ((GTok.anyRun :: ts).length + (x :: xs).length) (GTok.anyRun :: ts) xs)
    = (toksMatchGo (ts.length + (x :: xs).length + 1) ts (x :: xs) ||
      toksMatchGo ((GTok.anyRun :: ts).length + xs.length + 1) (GTok.anyRun :: ts) xs)
  rw [toksMatchGo_congr ((GTok.anyRun :: ts).length + (x :: xs).length)
      (ts.length + (x :: xs).length + 1) ts (x :: xs)
      (by simp only [List.length_cons]; omega) (by omega),
    toksMatchGo_congr ((GTok.anyRun :: ts).length + (x :: xs).length)
      ((GTok.anyRun :: ts).length + xs.length + 1) (GTok.anyRun :: ts) xs
      (by simp only [List.length_cons]; omega)
      (by simp only [List.length_cons]; omega)]

/-- Helper: step equation of toksMatch for nonSepRun on the empty string. -/
theorem toksMatch_nonSepRun_nil (ts : List GTok) :
    toksMatch (GTok.nonSepRun :: ts) [] = toksMatch ts [] := by
  show toksMatchGo ((GTok.nonSepRun :: ts).length + ([] : List Char).length) ts []
    = toksMatchGo (ts.length + ([] : List Char).length + 1) ts []
  rw [toksMatchGo_congr ((GTok.nonSepRun :: ts).length + ([] : List Char).length)
    (ts.length + ([] : List Char).length + 1) ts []
    (by simp only [List.length_cons, List.length_nil]; omega)
    (by simp only [List.length_nil]; omega)]

/-- Helper: step equation of toksMatch for nonSepRun on a nonempty
string. -/
theorem toksMatch_nonSepRun_cons (ts : List GTok) (x : Char) (xs : List Char) :
    toksMatch (GTok.nonSepRun :: ts) (x :: xs)
      = (toksMatch ts (x :: xs) ||
        (!(x == '/') && toksMatch (GTok.nonSepRun :: ts) xs)) := by
  show (toksMatchGo ((GTok.nonSepRun :: ts).length + (x :: xs).length) ts (x :: xs) ||
      (!(x == '/') && toksMatchGo ((GTok.nonSepRun :: ts).length + (x :: xs).length)
        (GTok.nonSepRun :: ts) xs))
    = (toksMatchGo (ts.length + (x :: xs).length + 1) ts (x :: xs) ||
      (!(x == '/') && toksMatchGo ((GTok.nonSepRun :: ts).length + xs.length + 1)
        (GTok.nonSepRun :: ts) xs))
  rw [toksMatchGo_congr ((GTok.nonSepRun :: ts).length + (x :: xs).length)
      (ts.length + (x :: xs).length + 1) ts (x :: xs)
      (by simp only [List.length_cons]; omega) (by omega),
    toksMatchGo_congr ((GTok.nonSepRun :: ts).length + (x :: xs).length)
      ((GTok.nonSepRun :: ts).length + xs.length + 1) (GTok.nonSepRun :: ts) xs
      (by simp only [List.length_cons]; omega)
      (by simp only [List.length_cons]; omega)]

/-- Helper: cacheSet stores its entry. -/
theorem cacheGet_set_self {c : List (String × CachedFileInfo)} {p : String}
    {v : CachedFileInfo} : cacheGet (cacheSet c p v) p = some v := by
  induction c with
  | nil =>
    simp [cacheSet, cacheGet]
  | cons e rest ih =>
    simp only [cacheSet]
    by_cases he : e.1 = p
    · rw [if_pos he]
      simp [cacheGet]
    · rw [if_neg he]
      simp only [cacheGet]
      rw [if_neg he]
      exact ih

/-- Helper: cacheSet leaves other keys unchanged. -/
theorem cacheGet_set_ne {c : List (String × CachedFileInfo)} {p q : String}
    {v : CachedFileInfo} (hne : q ≠ p) :
    cacheGet (cacheSet c p v) q = cacheGet c q := by
  induction c with
  | nil =>
    simp only [cacheSet, cacheGet]
    rw [if_neg (fun h => hne h.symm)]
  | cons e rest ih =>
    simp only [cacheSet]
    by_cases he : e.1 = p
    · rw [if_pos he]
      simp only [cacheGet]
      rw [if_neg (fun h => hne h.symm), if_neg (fun h => hne (h.symm.trans he))]
    · rw [if_neg he]
      simp only [cacheGet]
      by_cases heq : e.1 = q
      · rw [if_pos heq, if_pos heq]
      · rw [if_neg heq, if_neg heq]
        exact ih

/-- Helper: the seen-path purge keeps the entries of seen keys intact. -/
theorem cacheGet_filter_of_contains {c : List (String × CachedFileInfo)}
    {seen : List String} {p : String} (hp : seen.contains p = true) :
    cacheGet (c.filter (fun e => seen.contains e.1)) p = cacheGet c p := by
  induction c with
  | nil => rfl
  | cons e rest ih =>
    by_cases he : e.1 = p
    · have hk : seen.contains e.1 = true := by rw [he]; exact hp
      rw [List.filter_cons, if_pos (by simpa using hk)]
      simp only [cacheGet]
      rw [if_pos he, if_pos he]
    · rw [List.filter_cons]
      by_cases hk : seen.contains e.1 = true
      · rw [if_pos (by simpa using hk)]
        simp only [cacheGet]
        rw [if_neg he, if_neg he]
        exact ih
      · rw [if_neg (by simpa using hk)]
        simp only [cacheGet]
        rw [if_neg he]
        exact ih

/-- Helper: the seen-path purge erases every unseen key. -/
theorem cacheGet_filter_of_not_contains {c : List (String × CachedFileInfo)}
    {seen : List String} {p : String} (hp : seen.contains p = false) :
    cacheGet (c.filter (fun e => seen.contains e.1)) p = none := by
  induction c with
  | nil => rfl
  | cons e rest ih =>
    rw [List.filter_cons]
    by_cases hk : seen.contains e.1 = true
    · rw [if_pos (by simpa using hk)]
      simp only [cacheGet]
      have he : e.1 ≠ p := by
        intro h
        rw [h, hp] at hk
        exact Bool.noConfusion hk
      rw [if_neg he]
      exact ih
    · rw [if_neg (by simpa using hk)]
      exact ih

/-- Helper: reading and hashing a file other than p leaves the cache entry,
manifest entries and read mark of p unchanged. -/
theorem readAndHash_frame (hashFn : List Nat → String) (acc : BuildAcc)
    (f : VFile) (p : String) (hfp : f.path ≠ p) (mtime : Nat) :
    cacheGet (readAndHash hashFn acc f mtime).cache p = cacheGet acc.cache p ∧
    ((readAndHash hashFn acc f mtime).manifest.filter (fun e => e.path == p)
      = acc.manifest.filter (fun e => e.path == p)) ∧
    (p ∈ (readAndHash hashFn acc f mtime).reads ↔ p ∈ acc.reads) := by
  have hpf : p ≠ f.path := Ne.symm hfp
  unfold readAndHash
  cases hco : f.content with
  | some content =>
    refine ⟨cacheGet_set_ne hpf, ?_, ?_⟩
    · rw [List.filter_append]
      have hentry : ((fun (e : ManifestEntry) => e.path == p)
          { path := f.path, hash := hashFn content, size := content.length,
            modified_at := mtime }) = false := by
        simp [hfp]
      simp [hentry]
    · simp [List.mem_append, hpf]
  | none =>
    exact ⟨rfl, rfl, by simp [List.mem_append, hpf]⟩

/-- Helper: processing a file other than p leaves the cache entry, manifest
entries and read mark of p unchanged. -/
theorem processFile_frame (hashFn : List Nat → String) (patterns : List String)
    (acc : BuildAcc) (f : VFile) (p : String) (hfp : f.path ≠ p) :
    cacheGet (processFile hashFn patterns acc f).cache p = cacheGet acc.cache p ∧
    ((processFile hashFn patterns acc f).manifest.filter (fun e => e.path == p)
      = acc.manifest.filter (fun e => e.path == p)) ∧
    (p ∈ (processFile hashFn patterns acc f).reads ↔ p ∈ acc.reads) := by
  unfold processFile
  by_cases hs : shouldSkip patterns f.path = true
  · rw [if_pos hs]
    exact ⟨rfl, rfl, Iff.rfl⟩
  · rw [if_neg hs]
    cases hc : cacheGet acc.cache f.path with
    | some cached =>
      dsimp only
      by_cases hm : cached.mtime = f.mtimeMs / 1000 ∧ cached.size = f.statSize
      · rw [if_pos hm]
        refine ⟨rfl, ?_, Iff.rfl⟩
        rw [List.filter_append]
        have hentry : ((fun (e : ManifestEntry) => e.path == p)
            { path := f.path, hash := cached.hash, size := cached.size,
              modified_at := f.mtimeMs / 1000 }) = false := by
          simp [hfp]
        simp [hentry]
      · rw [if_neg hm]
        exact readAndHash_frame hashFn acc f p hfp (f.mtimeMs / 1000)
    | none => exact readAndHash_frame hashFn acc f p hfp (f.mtimeMs / 1000)

/-- Helper: folding the manifest loop over files that all avoid p leaves
the cache entry, manifest entries and read mark of p unchanged. -/
theorem foldl_frame (hashFn : List Nat → String) (patterns : List String) :
    ∀ (files : List VFile) (acc : BuildAcc) (p : String),
    (∀ f ∈ files, f.path ≠ p) →
    (cacheGet (files.foldl (processFile hashFn patterns) acc).cache p
      = cacheGet acc.cache p) ∧
    ((files.foldl (processFile hashFn patterns) acc).manifest.filter
        (fun e => e.path == p)
      = acc.manifest.filter (fun e => e.path == p)) ∧
    (p ∈ (files.foldl (processFile hashFn patterns) acc).reads ↔
      p ∈ acc.reads) := by
  intro files
  induction files with
  | nil =>
    intro acc p hp
    exact ⟨rfl, rfl, Iff.rfl⟩
  | cons f rest ih =>
    intro acc p hp
    have hf : f.path ≠ p := hp f (by simp)
    have hrest : ∀ g ∈ rest, g.path ≠ p := fun g hg => hp g (by simp [hg])
    have step := processFile_frame hashFn patterns acc f p hf
    have tail := ih (processFile hashFn patterns acc f) p hrest
    rw [List.foldl_cons]
    exact ⟨tail.1.trans step.1, (tail.2.1).trans step.2.1,
      (tail.2.2).trans step.2.2⟩

/-- Helper: the read-and-hash arm marks exactly its own path seen. -/
theorem readAndHash_seen_iff (hashFn : List Nat → String) (acc : BuildAcc)
    (f : VFile) (mtime : Nat) (p : String) :
    p ∈ (readAndHash hashFn acc f mtime).seen ↔ p ∈ acc.seen ∨ p = f.path := by
  unfold readAndHash
  cases f.content <;> simp [List.mem_append]

/-- Helper: a processed path is seen exactly when it was already seen or is
the file's own non-excluded path. -/
theorem processFile_seen_iff (hashFn : List Nat → String) (patterns : List String)
    (acc : BuildAcc) (f : VFile) (p : String) :
    p ∈ (processFile hashFn patterns acc f).seen ↔
      p ∈ acc.seen ∨ (f.path = p ∧ shouldSkip patterns f.path = false) := by
  unfold processFile
  by_cases hs : shouldSkip patterns f.path = true
  · rw [if_pos hs]
    simp [hs]
  · rw [if_neg hs]
    have hs2 : shouldSkip patterns f.path = false := by
      cases h : shouldSkip patterns f.path
      · rfl
      · exact absurd h hs
    cases hc : cacheGet acc.cache f.path with
    | some cached =>
      dsimp only
      by_cases hm : cached.mtime = f.mtimeMs / 1000 ∧ cached.size = f.statSize
      · rw [if_pos hm]
        simp [List.mem_append, hs2, eq_comm]
      · rw [if_neg hm, readAndHash_seen_iff]
        simp [hs2, eq_comm]
    | none =>
      dsimp only
      rw [readAndHash_seen_iff]
      simp [hs2, eq_comm]

/-- Helper: a path is seen after the fold exactly when some non-excluded
file in the list has it. -/
theorem foldl_seen_iff (hashFn : List Nat → String) (patterns : List String) :
    ∀ (files : List VFile) (acc : BuildAcc) (p : String),
    p ∈ (files.foldl (processFile hashFn patterns) acc).seen ↔
      p ∈ acc.seen ∨
        ∃ f ∈ files, f.path = p ∧ shouldSkip patterns f.path = false := by
  intro files
  induction files with
  | nil =>
    intro acc p
    simp
  | cons f rest ih =>
    intro acc p
    rw [List.foldl_cons, ih, processFile_seen_iff]
    constructor
    · rintro ((h | h) | ⟨g, hg, hgp, hgs⟩)
      · exact Or.inl h
      · exact Or.inr ⟨f, by simp, h.1, h.2⟩
      · exact Or.inr ⟨g, by simp [hg], hgp, hgs⟩
    · rintro (h | ⟨g, hg, hgp, hgs⟩)
      · exact Or.inl (Or.inl h)
      · rcases List.mem_cons.mp hg with rfl | hg2
        · exact Or.inl (Or.inr ⟨hgp, hgs⟩)
        · exact Or.inr ⟨g, hg2, hgp, hgs⟩

/-- Helper: step equation of the loop on a cache hit. -/
theorem processFile_hit_eq (hashFn : List Nat → String) (patterns : List String)
    (acc : BuildAcc) (f : VFile) (cached : CachedFileInfo)
    (hs : shouldSkip patterns f.path = false)
    (hc : cacheGet acc.cache f.path = some cached)
    (hm : cached.mtime = f.mtimeMs / 1000) (hsz : cached.size = f.statSize) :
    processFile hashFn patterns acc f =
      { acc with
        manifest := acc.manifest ++
          [{ path := f.path, hash := cached.hash, size := cached.size,
             modified_at := f.mtimeMs / 1000 }],
        seen := acc.seen ++ [f.path] } := by
  unfold processFile
  rw [if_neg (by simp [hs])]
  simp only [hc]
  rw [if_pos ⟨hm, hsz⟩]

/-- Helper: step equation of the loop on a cache miss (absent or stale
entry). -/
theorem processFile_miss_eq (hashFn : List Nat → String) (patterns : List String)
    (acc : BuildAcc) (f : VFile)
    (hs : shouldSkip patterns f.path = false)
    (hmiss : cacheGet acc.cache f.path = none ∨
      ∃ cached, cacheGet acc.cache f.path = some cached ∧
        ¬(cached.mtime = f.mtimeMs / 1000 ∧ cached.size = f.statSize)) :
    processFile hashFn patterns acc f = readAndHash hashFn acc f (f.mtimeMs / 1000) := by
  unfold processFile
  rw [if_neg (by simp [hs])]
  rcases hmiss with hc | ⟨cached, hc, hm⟩
  · simp only [hc]
  · simp only [hc]
    rw [if_neg hm]

/-- Helper: characterization of the treatment of one non-excluded file by
buildManifest, relative to the incoming cache: a fresh (mtime, size) match
reuses the cached hash without a read; otherwise the content is read,
hashed, and the cache entry replaced. -/
theorem buildManifest_file_char (hashFn : List Nat → String)
    (patterns : List String) (cache0 : List (String × CachedFileInfo))
    (files : List VFile) (f : VFile)
    (hmem : f ∈ files) (hnd : (files.map VFile.path).Nodup)
    (hs : shouldSkip patterns f.path = false) :
    (∀ cached, cacheGet cache0 f.path = some cached →
      cached.mtime = f.mtimeMs / 1000 → cached.size = f.statSize →
      (buildManifest hashFn patterns cache0 files).1.filter
          (fun e => e.path == f.path) =
        [{ path := f.path, hash := cached.hash, size := cached.size,
           modified_at := f.mtimeMs / 1000 }] ∧
      f.path ∉ (buildManifest hashFn patterns cache0 files).2.2) ∧
    ((cacheGet cache0 f.path = none ∨
      ∃ cached, cacheGet cache0 f.path = some cached ∧
        ¬(cached.mtime = f.mtimeMs / 1000 ∧ cached.size = f.statSize)) →
      f.path ∈ (buildManifest hashFn patterns cache0 files).2.2 ∧
      ∀ content, f.content = some content →
        (buildManifest hashFn patterns cache0 files).1.filter
            (fun e => e.path == f.path) =
          [{ path := f.path, hash := hashFn content, size := content.length,
             modified_at := f.mtimeMs / 1000 }] ∧
        cacheGet (buildManifest hashFn patterns cache0 files).2.1 f.path =
          some { hash := hashFn content, mtime := f.mtimeMs / 1000,
                 size := content.length }) := by
  obtain ⟨pre, post, rfl⟩ := List.append_of_mem hmem
  rw [List.map_append, List.map_cons] at hnd
  have hsplit := List.nodup_append.mp hnd
  have hpre : ∀ g ∈ pre, g.path ≠ f.path := by
    intro g hg heq
    exact hsplit.2.2 (List.mem_map_of_mem VFile.path hg)
      (by rw [heq]; exact List.mem_cons_self _ _)
  have hpost : ∀ g ∈ post, g.path ≠ f.path := by
    have hfp : f.path ∉ post.map VFile.path := (List.nodup_cons.mp hsplit.2.1).1
    intro g hg heq
    exact hfp (by rw [← heq]; exact List.mem_map_of_mem VFile.path hg)
  set acc0 : BuildAcc :=
    { manifest := [], seen := [], cache := cache0, reads := [] } with hacc0
  set accP := pre.foldl (processFile hashFn patterns) acc0 with haccP
  have hfold : (pre ++ f :: post).foldl (processFile hashFn patterns) acc0
      = post.foldl (processFile hashFn patterns)
          (processFile hashFn patterns accP f) := by
    rw [List.foldl_append, List.foldl_cons]
  have framePre := foldl_frame hashFn patterns pre acc0 f.path hpre
  have hcacheP : cacheGet accP.cache f.path = cacheGet cache0 f.path := framePre.1
  have hmanP : accP.manifest.filter (fun e => e.path == f.path) = [] := by
    have h := framePre.2.1
    simpa using h
  have hreadsP : f.path ∉ accP.reads := by
    intro h
    have h2 := framePre.2.2.mp h
    simp [hacc0] at h2
  refine ⟨?_, ?_⟩
  · intro cached hcc hm hsz
    have hcP : cacheGet accP.cache f.path = some cached := hcacheP.trans hcc
    have hstep := processFile_hit_eq hashFn patterns accP f cached hs hcP hm hsz
    set accQ := processFile hashFn patterns accP f with haccQ
    have framePost := foldl_frame hashFn patterns post accQ f.path hpost
    constructor
    · show ((pre ++ f :: post).foldl (processFile hashFn patterns)
          acc0).manifest.filter (fun e => e.path == f.path) = _
      rw [hfold, framePost.2.1, hstep]
      dsimp only
      rw [List.filter_append, hmanP]
      simp
    · show f.path ∉ ((pre ++ f :: post).foldl (processFile hashFn patterns)
          acc0).reads
      rw [hfold]
      intro h
      have h2 := framePost.2.2.mp h
      rw [hstep] at h2
      exact hreadsP h2
  · intro hmiss
    have hmissP : cacheGet accP.cache f.path = none ∨
        ∃ cached, cacheGet accP.cache f.path = some cached ∧
          ¬(cached.mtime = f.mtimeMs / 1000 ∧ cached.size = f.statSize) := by
      rcases hmiss with h | ⟨cached, hcc, hm⟩
      · exact Or.inl (hcacheP.trans h)
      · exact Or.inr ⟨cached, hcacheP.trans hcc, hm⟩
    have hstep := processFile_miss_eq hashFn patterns accP f hs hmissP
    have framePost := foldl_frame hashFn patterns post
      (processFile hashFn patterns accP f) f.path hpost
    constructor
    · show f.path ∈ ((pre ++ f :: post).foldl (processFile hashFn patterns)
          acc0).reads
      rw [hfold]
      apply framePost.2.2.mpr
      rw [hstep]
      unfold readAndHash
      cases f.content <;> simp
    · intro content hco
      have hQ : processFile hashFn patterns accP f =
          { manifest := accP.manifest ++
              [{ path := f.path, hash := hashFn content, size := content.length,
                 modified_at := f.mtimeMs / 1000 }],
            seen := accP.seen ++ [f.path],
            cache := cacheSet accP.cache f.path
              { hash := hashFn content, mtime := f.mtimeMs / 1000,
                size := content.length },
            reads := accP.reads ++ [f.path] } := by
        rw [hstep]
        unfold readAndHash
        rw [hco]
      constructor
      · show ((pre ++ f :: post).foldl (processFile hashFn patterns)
            acc0).manifest.filter (fun e => e.path == f.path) = _
        rw [hfold, framePost.2.1, hQ]
        dsimp only
        rw [List.filter_append, hmanP]
        simp
      · have hseen : ((pre ++ f :: post).foldl (processFile hashFn patterns)
            acc0).seen.contains f.path = true := by
          apply List.elem_iff.mpr
          rw [foldl_seen_iff]
          exact Or.inr ⟨f, by simp, rfl, hs⟩
        show cacheGet
            (((pre ++ f :: post).foldl (processFile hashFn patterns)
                acc0).cache.filter
              (fun e => ((pre ++ f :: post).foldl (processFile hashFn patterns)
                acc0).seen.contains e.1)) f.path = _
        rw [cacheGet_filter_of_contains hseen, hfold, framePost.1, hQ]
        exact cacheGet_set_self

/-- Helper: a cache entry whose key no build file (non-excluded) carries is
purged at the end of the build. -/
theorem buildManifest_purge (hashFn : List Nat → String) (patterns : List String)
    (cache0 : List (String × CachedFileInfo)) (files : List VFile) (p : String)
    (hp : ∀ f ∈ files, f.path = p → shouldSkip patterns f.path = true) :
    cacheGet (buildManifest hashFn patterns cache0 files).2.1 p = none := by
  have hnmem : p ∉ (files.foldl (processFile hashFn patterns)
      { manifest := [], seen := [], cache := cache0, reads := [] }).seen := by
    rw [foldl_seen_iff]
    rintro (h | ⟨f, hf, hfp, hfs⟩)
    · simp at h
    · have h2 := hp f hf hfp
      rw [h2] at hfs
      exact Bool.noConfusion hfs
  have hcont : (files.foldl (processFile hashFn patterns)
      { manifest := [], seen := [], cache := cache0, reads := [] }).seen.contains p
      = false := by
    cases h : (files.foldl (processFile hashFn patterns)
        { manifest := [], seen := [], cache := cache0, reads := [] }).seen.contains p
    · rfl
    · exact absurd (List.elem_iff.mp h) hnmem
  exact cacheGet_filter_of_not_contains hcont

/-- C5: across manifest builds, a file whose (mtime, size) matches its
cache entry reports the cached hash and is not read; a file with an absent
or stale entry is read, re-hashed and its entry replaced; entries keyed by
paths not seen in the build are deleted; and across two consecutive builds
a path unchanged in (mtime, size) reports the first build's hash with no
re-read, even if the content silently changed. -/
theorem hash_cache_correct (hashFn : List Nat → String) (patterns : List String) :
    (∀ cache0 files f cached, f ∈ files → (files.map VFile.path).Nodup →
      shouldSkip patterns f.path = false →
      cacheGet cache0 f.path = some cached →
      cached.mtime = f.mtimeMs / 1000 → cached.size = f.statSize →
      (buildManifest hashFn patterns cache0 files).1.filter
          (fun e => e.path == f.path) =
        [{ path := f.path, hash := cached.hash, size := cached.size,
           modified_at := f.mtimeMs / 1000 }] ∧
      f.path ∉ (buildManifest hashFn patterns cache0 files).2.2) ∧
    (∀ cache0 files f content, f ∈ files → (files.map VFile.path).Nodup →
      shouldSkip patterns f.path = false →
      (cacheGet cache0 f.path = none ∨
        ∃ cached, cacheGet cache0 f.path = some cached ∧
          ¬(cached.mtime = f.mtimeMs / 1000 ∧ cached.size = f.statSize)) →
      f.content = some content →
      f.path ∈ (buildManifest hashFn patterns cache0 files).2.2 ∧
      (buildManifest hashFn patterns cache0 files).1.filter
          (fun e => e.path == f.path) =
        [{ path := f.path, hash := hashFn content, size := content.length,
           modified_at := f.mtimeMs / 1000 }] ∧
      cacheGet (buildManifest hashFn patterns cache0 files).2.1 f.path =
        some { hash := hashFn content, mtime := f.mtimeMs / 1000,
               size := content.length }) ∧
    (∀ cache0 files p,
      (∀ f ∈ files, f.path = p → shouldSkip patterns f.path = true) →
      cacheGet (buildManifest hashFn patterns cache0 files).2.1 p = none) ∧
    (∀ cache0 files1 files2 f1 f2 content1,
      f1 ∈ files1 → (files1.map VFile.path).Nodup →
      f2 ∈ files2 → (files2.map VFile.path).Nodup →
      shouldSkip patterns f1.path = false →
      f2.path = f1.path →
      f1.content = some content1 →
      (cacheGet cache0 f1.path = none ∨
        ∃ cached, cacheGet cache0 f1.path = some cached ∧
          ¬(cached.mtime = f1.mtimeMs / 1000 ∧ cached.size = f1.statSize)) →
      f2.mtimeMs / 1000 = f1.mtimeMs / 1000 →
      f2.statSize = content1.length →
      (buildManifest hashFn patterns
          (buildManifest hashFn patterns cache0 files1).2.1 files2).1.filter
          (fun e => e.path == f2.path) =
        [{ path := f2.path, hash := hashFn content1, size := content1.length,
           modified_at := f2.mtimeMs / 1000 }] ∧
      f2.path ∉ (buildManifest hashFn patterns
          (buildManifest hashFn patterns cache0 files1).2.1 files2).2.2) := by
  refine ⟨?_, ?_, ?_, ?_⟩
  · intro cache0 files f cached hmem hnd hs hcc hm hsz
    exact (buildManifest_file_char hashFn patterns cache0 files f hmem hnd hs).1
      cached hcc hm hsz
  · intro cache0 files f content hmem hnd hs hmiss hco
    have h := (buildManifest_file_char hashFn patterns cache0 files f
      hmem hnd hs).2 hmiss
    exact ⟨h.1, (h.2 content hco).1, (h.2 content hco).2⟩
  · intro cache0 files p hp
    exact buildManifest_purge hashFn patterns cache0 files p hp
  · intro cache0 files1 files2 f1 f2 content1 hf1 hnd1 hf2 hnd2 hs1 hpath
      hco1 hmiss hmt hsz
    have h1 := (buildManifest_file_char hashFn patterns cache0 files1 f1
      hf1 hnd1 hs1).2 hmiss
    have hcache1 := (h1.2 content1 hco1).2
    have hs2 : shouldSkip patterns f2.path = false := by rw [hpath]; exact hs1
    have h2 := (buildManifest_file_char hashFn patterns
      (buildManifest hashFn patterns cache0 files1).2.1 files2 f2 hf2 hnd2 hs2).1
      { hash := hashFn content1, mtime := f1.mtimeMs / 1000,
        size := content1.length }
      (by rw [hpath]; exact hcache1) (by exact hmt.symm) (by exact hsz.symm)
    exact h2

/-- Witness for hash_cache_correct: with digest = decimal length and no
exclude patterns, a file matching its cache entry reports the cached hash
h1 with no read; a fresh file is read and cached; a cache entry for a path
absent from an empty build is purged; and a second build with unchanged
(mtime, size) but silently changed content still reports the first build's
hash with no read. -/
theorem hash_cache_correct_witness :
    ((buildManifest (fun l => toString l.length) []
        [("a.md", { hash := "h1", mtime := 5, size := 3 })]
        [{ path := "a.md", mtimeMs := 5999, statSize := 3,
           content := some [9, 9, 9] }]).1.filter (fun e => e.path == "a.md") =
      [{ path := "a.md", hash := "h1", size := 3, modified_at := 5 }] ∧
     "a.md" ∉ (buildManifest (fun l => toString l.length) []
        [("a.md", { hash := "h1", mtime := 5, size := 3 })]
        [{ path := "a.md", mtimeMs := 5999, statSize := 3,
           content := some [9, 9, 9] }]).2.2) ∧
    ("b.md" ∈ (buildManifest (fun l => toString l.length) [] []
        [{ path := "b.md", mtimeMs := 7999, statSize := 3,
           content := some [1, 2, 3] }]).2.2 ∧
     (buildManifest (fun l => toString l.length) [] []
        [{ path := "b.md", mtimeMs := 7999, statSize := 3,
           content := some [1, 2, 3] }]).1.filter (fun e => e.path == "b.md") =
      [{ path := "b.md", hash := "3", size := 3, modified_at := 7 }] ∧
     cacheGet (buildManifest (fun l => toString l.length) [] []
        [{ path := "b.md", mtimeMs := 7999, statSize := 3,
           content := some [1, 2, 3] }]).2.1 "b.md" =
      some { hash := "3", mtime := 7, size := 3 }) ∧
    (cacheGet (buildManifest (fun l => toString l.length) []
        [("old.md", { hash := "h", mtime := 1, size := 1 })] []).2.1 "old.md"
      = none) ∧
    ((buildManifest (fun l => toString l.length) []
        (buildManifest (fun l => toString l.length) [] []
          [{ path := "c.md", mtimeMs := 5999, statSize := 3,
             content := some [1, 2, 3] }]).2.1
        [{ path := "c.md", mtimeMs := 5321, statSize := 3,
           content := some [7, 7, 7] }]).1.filter (fun e => e.path == "c.md") =
      [{ path := "c.md", hash := "3", size := 3, modified_at := 5 }] ∧
     "c.md" ∉ (buildManifest (fun l => toString l.length) []
        (buildManifest (fun l => toString l.length) [] []
          [{ path := "c.md", mtimeMs := 5999, statSize := 3,
             content := some [1, 2, 3] }]).2.1
        [{ path := "c.md", mtimeMs := 5321, statSize := 3,
           content := some [7, 7, 7] }]).2.2) := by
  refine ⟨?_, ?_, ?_, ?_⟩
  · exact (hash_cache_correct (fun l => toString l.length) []).1
      [("a.md", { hash := "h1", mtime := 5, size := 3 })]
      [{ path := "a.md", mtimeMs := 5999, statSize := 3,
         content := some [9, 9, 9] }]
      { path := "a.md", mtimeMs := 5999, statSize := 3, content := some [9, 9, 9] }
      { hash := "h1", mtime := 5, size := 3 }
      (by decide) (by decide) (by decide) (by decide) (by decide) (by decide)
  · exact (hash_cache_correct (fun l => toString l.length) []).2.1 []
      [{ path := "b.md", mtimeMs := 7999, statSize := 3,
         content := some [1, 2, 3] }]
      { path := "b.md", mtimeMs := 7999, statSize := 3, content := some [1, 2, 3] }
      [1, 2, 3]
      (by decide) (by decide) (by decide) (Or.inl rfl) rfl
  · exact (hash_cache_correct (fun l => toString l.length) []).2.2.1
      [("old.md", { hash := "h", mtime := 1, size := 1 })] [] "old.md"
      (by intro f hf; simp at hf)
  · exact (hash_cache_correct (fun l => toString l.length) []).2.2.2 []
      [{ path := "c.md", mtimeMs := 5999, statSize := 3,
         content := some [1, 2, 3] }]
      [{ path := "c.md", mtimeMs := 5321, statSize := 3,
         content := some [7, 7, 7] }]
      { path := "c.md", mtimeMs := 5999, statSize := 3, content := some [1, 2, 3] }
      { path := "c.md", mtimeMs := 5321, statSize := 3, content := some [7, 7, 7] }
      [1, 2, 3]
      (by decide) (by decide) (by decide) (by decide) (by decide) rfl rfl
      (Or.inl rfl) (by decide) (by decide)

/-- Helper: anyRun can consume any run before a match of the rest. -/
theorem toksMatch_anyRun_append (ts : List GTok) (s u : List Char)
    (h : toksMatch ts s = true) :
    toksMatch (GTok.anyRun :: ts) (u ++ s) = true := by
  induction u with
  | nil =>
    rw [List.nil_append]
    cases s with
    | nil => rw [toksMatch_anyRun_nil]; exact h
    | cons x xs => rw [toksMatch_anyRun_cons, h, Bool.true_or]
  | cons y u2 ih =>
    rw [List.cons_append, toksMatch_anyRun_cons, ih, Bool.or_true]

/-- Helper: nonSepRun can consume any separator-free run before a match of
the rest. -/
theorem toksMatch_nonSepRun_append (ts : List GTok) (s u : List Char)
    (hsep : ∀ c ∈ u, c ≠ '/') (h : toksMatch ts s = true) :
    toksMatch (GTok.nonSepRun :: ts) (u ++ s) = true := by
  induction u with
  | nil =>
    rw [List.nil_append]
    cases s with
    | nil => rw [toksMatch_nonSepRun_nil]; exact h
    | cons x xs => rw [toksMatch_nonSepRun_cons, h, Bool.true_or]
  | cons y u2 ih =>
    have hy : (y == '/') = false := beq_eq_false_iff_ne.mpr (hsep y (by simp))
    have h2 : toksMatch (GTok.nonSepRun :: ts) (u2 ++ s) = true :=
      ih (fun c hc => hsep c (by simp [hc]))
    rw [List.cons_append, toksMatch_nonSepRun_cons, hy, h2]
    simp

/-- Helper: the backtracking matcher is complete for the declarative
semantics. -/
theorem toksMatch_complete {ts : List GTok} {s : List Char}
    (h : TokMatches ts s) : toksMatch ts s = true := by
  induction h with
  | nil => rfl
  | lit c ts s h ih => rw [toksMatch_lit_cons, ih]; simp
  | anyRun u ts s h ih => exact toksMatch_anyRun_append ts s u ih
  | nonSepRun u ts s hsep h ih => exact toksMatch_nonSepRun_append ts s u hsep ih

/-- Helper: the backtracking matcher is sound for the declarative
semantics. -/
theorem toksMatch_sound : ∀ (n : Nat) (ts : List GTok) (s : List Char),
    ts.length + s.length ≤ n → toksMatch ts s = true → TokMatches ts s := by
  intro n
  induction n with
  | zero =>
    intro ts s hle h
    cases ts with
    | nil =>
      cases s with
      | nil => exact TokMatches.nil
      | cons x xs => simp at hle
    | cons t ts2 => simp at hle
  | succ n ih =>
    intro ts s hle h
    match ts, s with
    | [], [] => exact TokMatches.nil
    | [], x :: xs =>
      rw [show toksMatch [] (x :: xs) = false from rfl] at h
      exact Bool.noConfusion h
    | GTok.lit c :: ts2, [] =>
      rw [show toksMatch (GTok.lit c :: ts2) [] = false from rfl] at h
      exact Bool.noConfusion h
    | GTok.lit c :: ts2, x :: xs =>
      rw [toksMatch_lit_cons, Bool.and_eq_true, beq_iff_eq] at h
      obtain ⟨hcx, h2⟩ := h
      subst hcx
      have hrec := ih ts2 xs
        (by simp only [List.length_cons] at hle; omega) h2
      exact TokMatches.lit c ts2 xs hrec
    | GTok.anyRun :: ts2, [] =>
      rw [toksMatch_anyRun_nil] at h
      have hrec := ih ts2 []
        (by simp only [List.length_cons] at hle ⊢; omega) h
      simpa using TokMatches.anyRun [] ts2 [] hrec
    | GTok.anyRun :: ts2, x :: xs =>
      rw [toksMatch_anyRun_cons, Bool.or_eq_true] at h
      rcases h with h | h
      · have hrec := ih ts2 (x :: xs)
          (by simp only [List.length_cons] at hle ⊢; omega) h
        simpa using TokMatches.anyRun [] ts2 (x :: xs) hrec
      · have hrec := ih (GTok.anyRun :: ts2) xs
          (by simp only [List.length_cons] at hle ⊢; omega) h
        cases hrec with
        | anyRun u ts3 s3 h3 =>
          have := TokMatches.anyRun (x :: u) ts2 s3 h3
          simpa using this
    | GTok.nonSepRun :: ts2, [] =>
      rw [toksMatch_nonSepRun_nil] at h
      have hrec := ih ts2 []
        (by simp only [List.length_cons] at hle ⊢; omega) h
      simpa using TokMatches.nonSepRun [] ts2 [] (by simp) hrec
    | GTok.nonSepRun :: ts2, x :: xs =>
      rw [toksMatch_nonSepRun_cons, Bool.or_eq_true] at h
      rcases h with h | h
      · have hrec := ih ts2 (x :: xs)
          (by simp only [List.length_cons] at hle ⊢; omega) h
        simpa using TokMatches.nonSepRun [] ts2 (x :: xs) (by simp) hrec
      · rw [Bool.and_eq_true, Bool.not_eq_true', beq_eq_false_iff_ne] at h
        obtain ⟨hx, h2⟩ := h
        have hrec := ih (GTok.nonSepRun :: ts2) xs
          (by simp only [List.length_cons] at hle ⊢; omega) h2
        cases hrec with
        | nonSepRun u ts3 s3 hsep h3 =>
          have hsep2 : ∀ c ∈ x :: u, c ≠ '/' := by
            intro c hc
            rcases List.mem_cons.mp hc with hc | hc
            · exact hc ▸ hx
            · exact hsep c hc
          have := TokMatches.nonSepRun (x :: u) ts2 s3 hsep2 h3
          simpa using this

/-- Helper: decision procedure and declarative semantics agree. -/
theorem toksMatch_iff (ts : List GTok) (s : List Char) :
    toksMatch ts s = true ↔ TokMatches ts s :=
  ⟨toksMatch_sound (ts.length + s.length) ts s le_rfl, toksMatch_complete⟩

/-- C7 counterexample: the pattern foo/ (trailing slash) matches the path
foobar, which is not under the directory prefix foo/; and the pattern
a/&#42;&#42;/b matches the path a/b, which the literal reading of the spec
grammar rejects.  (The glob characters are written escaped here only to
keep the doc comment well-formed.) -/
theorem glob_spec_counterexample :
    (matchesPattern "foobar" "foo/" = true ∧
      ¬ SpecGlobMatch "foobar".data "foo/".data) ∧
    (matchesPattern "a/b" "a/**/b" = true ∧
      ¬ SpecGlobMatch "a/b".data "a/**/b".data) := by
  refine ⟨⟨by decide, ?_⟩, ⟨by decide, ?_⟩⟩
  · intro h
    rw [SpecGlobMatch, if_pos (by decide)] at h
    exact absurd h (by decide)
  · intro h
    rw [SpecGlobMatch, if_neg (by decide)] at h
    exact absurd (toksMatch_complete h) (by decide)

/-- C7 amended: matchesPattern decides the glob grammar with two source
deviations: a pattern with a trailing slash matches exactly the paths that
start with the pattern minus its trailing slash (so also sibling paths such
as foobar under foo/), and a double star absorbs one directly following
slash during compilation (globToTokens); a slash-free run for a single
star and an arbitrary run for a double star are as the spec states, with an
exact-equality short-circuit. -/
theorem glob_matcher_amended (path pattern : List Char) :
    matchesPatternL path pattern = true ↔
      ((pattern.getLast? = some '/' ∧
          (pattern.dropLast).isPrefixOf path = true) ∨
        (pattern.getLast? ≠ some '/' ∧
          (path = pattern ∨ TokMatches (globToTokens pattern) path))) := by
  by_cases hsl : pattern.getLast? = some '/'
  · rw [matchesPatternL, if_pos (by simp [hsl])]
    constructor
    · intro h
      rcases Bool.or_eq_true_iff.mp h with h | h
      · refine Or.inl ⟨hsl, ?_⟩
        have h1 : pattern <+: path := List.isPrefixOf_iff_prefix.mp h
        exact List.isPrefixOf_iff_prefix.mpr
          ((List.dropLast_prefix pattern).trans h1)
      · exact Or.inl ⟨hsl, h⟩
    · rintro (⟨_, h⟩ | ⟨hne, _⟩)
      · rw [h, Bool.or_true]
      · exact absurd hsl hne
  · rw [matchesPatternL, if_neg (by simp [hsl])]
    by_cases heq : path = pattern
    · rw [if_pos (by simp [heq])]
      constructor
      · intro _
        exact Or.inr ⟨hsl, Or.inl heq⟩
      · intro _
        rfl
    · rw [if_neg (by simp [heq])]
      constructor
      · intro h
        exact Or.inr ⟨hsl, Or.inr ((toksMatch_iff _ _).mp h)⟩
      · rintro (⟨h1, _⟩ | ⟨_, h | h⟩)
        · exact absurd h1 hsl
        · exact absurd h heq
        · exact (toksMatch_iff _ _).mpr h

/-- C1: with a non-empty prior cursor of size N and exactly k of its paths
absent from the current manifest, the cycle reports exactly those k paths as
deletions when k/N <= 0.5 (including at exactly 0.5), and reports no
deletions at all when k/N > 0.5. -/
theorem wipe_guard (lastPaths currentPaths : List String)
    (hN : lastPaths ≠ []) :
    (2 * (lastPaths.filter (fun p => !(currentPaths.contains p))).length ≤ lastPaths.length →
      computeDeletedPaths lastPaths currentPaths =
        lastPaths.filter (fun p => !(currentPaths.contains p))) ∧
    (lastPaths.length < 2 * (lastPaths.filter (fun p => !(currentPaths.contains p))).length →
      computeDeletedPaths lastPaths currentPaths = []) := by
  have hpos : lastPaths.length > 0 := List.length_pos.mpr hN
  constructor
  · intro hle
    simp only [computeDeletedPaths, if_pos hpos, if_pos hle]
  · intro hgt
    simp only [computeDeletedPaths, if_pos hpos, if_neg (Nat.not_le.mpr hgt)]

/-- Witness for wipe_guard: two tracked paths with one missing (ratio
exactly 0.5) reports that one deletion; three tracked paths all missing
(ratio 1) reports none. -/
theorem wipe_guard_witness :
    computeDeletedPaths ["a", "b"] ["b"] = ["a"] ∧
    computeDeletedPaths ["a", "b", "c"] [] = [] := by
  constructor
  · exact (wipe_guard ["a", "b"] ["b"] (by decide)).1 (by decide)
  · exact (wipe_guard ["a", "b", "c"] [] (by decide)).2 (by decide)

/-- C2: a cycle with at least one failed download-class instruction
(download or conflict) does not call complete() and leaves the cursor
unchanged; a cycle whose only failures are upload instructions calls
complete() and advances the cursor to the current manifest path set. -/
theorem cursor_safety (cursor : SyncCursor) (now : Nat)
    (manifestPaths : List String) (results : List InstrResult) :
    ((∃ r ∈ results, r.failed = true ∧
        (r.action = SyncAction.download ∨ r.action = SyncAction.conflict)) →
      finishCycle cursor now manifestPaths results = (cursor, false)) ∧
    ((∀ r ∈ results, r.failed = true → r.action = SyncAction.upload) →
      finishCycle cursor now manifestPaths results =
        ({ lastSyncTime := now, lastSyncedPaths := manifestPaths }, true)) := by
  constructor
  · rintro ⟨r, hr, hfail, hact⟩
    have hpred : isDownloadClassFailure r = true := by
      cases hact <;> simp [isDownloadClassFailure, hfail, *]
    have hne : countDownloadErrors results ≠ 0 := by
      intro h0
      have hnil : results.filter isDownloadClassFailure = [] :=
        List.length_eq_zero.mp h0
      have := List.filter_eq_nil_iff.mp hnil r hr
      exact this hpred
    simp only [finishCycle, if_neg hne]
  · intro hall
    have h0 : countDownloadErrors results = 0 := by
      have hnil : results.filter isDownloadClassFailure = [] := by
        apply List.filter_eq_nil_iff.mpr
        intro r hr
        intro hpred
        have hfail : r.failed = true := by
          by_contra hf
          simp [isDownloadClassFailure, Bool.eq_false_iff.mpr hf] at hpred
        have hup : r.action = SyncAction.upload := hall r hr hfail
        simp [isDownloadClassFailure, hfail, hup] at hpred
      simp [countDownloadErrors, hnil]
    simp only [finishCycle, if_pos h0]

/-- Witness for cursor_safety: a cycle with one failed download keeps the
cursor; a cycle with one failed upload (and a successful download) advances
it. -/
theorem cursor_safety_witness :
    finishCycle ⟨7, ["old"]⟩ 42 ["new"]
        [⟨SyncAction.download, true⟩] = (⟨7, ["old"]⟩, false) ∧
    finishCycle ⟨7, ["old"]⟩ 42 ["new"]
        [⟨SyncAction.upload, true⟩, ⟨SyncAction.download, false⟩] =
      (⟨42, ["new"]⟩, true) := by
  constructor
  · exact (cursor_safety ⟨7, ["old"]⟩ 42 ["new"] [⟨SyncAction.download, true⟩]).1
      ⟨⟨SyncAction.download, true⟩, by decide, rfl, Or.inl rfl⟩
  · exact (cursor_safety ⟨7, ["old"]⟩ 42 ["new"]
      [⟨SyncAction.upload, true⟩, ⟨SyncAction.download, false⟩]).2 (by decide)

/-- C4: withRetry invokes the operation at most 3 times; a first attempt
failing with status 401/403/404/413 is rethrown immediately after exactly
one invocation with no delay; an operation failing with retryable errors on
all three attempts is invoked exactly 3 times with delays of 2000 ms and
4000 ms (attempt number times 2 s) between attempts, and the last error is
surfaced. -/
theorem retry_policy {α : Type} (fn : Nat → Except ApiFailure α)
    (e1 e2 e3 : ApiFailure) :
    (fn 1 = Except.error e1 → isNonRetryableStatus e1.status = true →
      withRetry fn = (Except.error e1, 1, [])) ∧
    (fn 1 = Except.error e1 → isNonRetryableStatus e1.status = false →
     fn 2 = Except.error e2 → isNonRetryableStatus e2.status = false →
     fn 3 = Except.error e3 → isNonRetryableStatus e3.status = false →
      withRetry fn = (Except.error e3, 3, [2000, 4000])) ∧
    (withRetry fn).2.1 ≤ 3 := by
  refine ⟨?_, ?_, ?_⟩
  · intro h1 hnr
    rw [withRetry, withRetryGo, h1]
    simp [hnr]
  · intro h1 hr1 h2 hr2 h3 hr3
    rw [withRetry, withRetryGo, h1]
    simp only [hr1, Bool.false_eq_true, if_false, reduceDIte]
    rw [withRetryGo, h2]
    simp only [hr2, Bool.false_eq_true, if_false, reduceDIte]
    rw [withRetryGo, h3]
    simp [hr3]
  · have := withRetryGo_calls_le fn 3 1 0 []
    simpa [withRetry] using this

/-- C3: under the assumptions that the platform cipher is a correct
authenticated-encryption scheme at the relevant inputs, decrypt inverts
encrypt for every plaintext and (passphrase, salt); any blob the cipher
rejects (wrong passphrase or salt, i.e. a different derived key, or
tampered ciphertext) yields the single opaque authFailure class; and
decrypt never returns a plaintext the cipher did not authenticate. -/
theorem encrypt_decrypt_roundtrip (c : AECipher) (iv data : List Nat)
    (passphrase saltHex : String) :
    (iv.length = IV_LENGTH →
     1 ≤ (c.enc (c.kdf passphrase saltHex) iv data).length →
     c.dec (c.kdf passphrase saltHex) iv
         (c.enc (c.kdf passphrase saltHex) iv data) = some data →
      CryptoEngine.decrypt c (CryptoEngine.encrypt c iv data passphrase saltHex)
          passphrase saltHex = Except.ok data) ∧
    (∀ (blob : List Nat) (p2 s2 : String),
      IV_LENGTH + 1 ≤ blob.length →
      c.dec (c.kdf p2 s2) (blob.take IV_LENGTH) (blob.drop IV_LENGTH) = none →
      CryptoEngine.decrypt c blob p2 s2 = Except.error DecryptError.authFailure) ∧
    (∀ (blob pt : List Nat),
      CryptoEngine.decrypt c blob passphrase saltHex = Except.ok pt →
      c.dec (c.kdf passphrase saltHex) (blob.take IV_LENGTH) (blob.drop IV_LENGTH)
        = some pt) := by
  refine ⟨?_, ?_, ?_⟩
  · intro hiv htag hdec
    unfold CryptoEngine.encrypt CryptoEngine.decrypt
    have hlen : (iv ++ c.enc (c.kdf passphrase saltHex) iv data).length =
        IV_LENGTH + (c.enc (c.kdf passphrase saltHex) iv data).length := by
      simp [hiv]
    rw [if_neg (by omega)]
    rw [List.take_left' hiv, List.drop_left' hiv, hdec]
  · intro blob p2 s2 hlen hdec
    unfold CryptoEngine.decrypt
    rw [if_neg (Nat.not_lt.mpr hlen), hdec]
  · intro blob pt h
    unfold CryptoEngine.decrypt at h
    by_cases hl : blob.length < IV_LENGTH + 1
    · rw [if_pos hl] at h
      exact absurd h (by simp)
    · rw [if_neg hl] at h
      cases hdec : c.dec (c.kdf passphrase saltHex) (blob.take IV_LENGTH)
          (blob.drop IV_LENGTH) with
      | none => rw [hdec] at h; exact absurd h (by simp)
      | some pt2 =>
        rw [hdec] at h
        simp only [Except.ok.injEq] at h
        rw [h]

/-- Witness for encrypt_decrypt_roundtrip, instantiated with the stand-in
cipher: a round trip succeeds, and a blob with a tampered final ciphertext
byte is rejected with authFailure. -/
theorem encrypt_decrypt_roundtrip_witness :
    CryptoEngine.decrypt toyCipher
        (CryptoEngine.encrypt toyCipher (List.replicate 12 0) [1, 2] "p" "")
        "p" "" = Except.ok [1, 2] ∧
    CryptoEngine.decrypt toyCipher (List.replicate 12 0 ++ [1, 2, 9]) "p" ""
      = Except.error DecryptError.authFailure := by
  constructor
  · exact (encrypt_decrypt_roundtrip toyCipher (List.replicate 12 0) [1, 2]
      "p" "").1 (by decide) (by decide) (by decide)
  · exact (encrypt_decrypt_roundtrip toyCipher (List.replicate 12 0) [1, 2]
      "p" "").2.1 (List.replicate 12 0 ++ [1, 2, 9]) "p" "" (by decide) (by decide)

/-- C6: for a download instruction with a present local file, equal digests
leave the vault unchanged, issue exactly one fix-hash call with that digest
and return false; differing digests overwrite the local file with the
downloaded content and return true; with no local file, the file is created
(with its parent directory brought into existence on demand) and true is
returned. -/
theorem download_skip_or_write (hashFn : List Nat → String)
    (download : String → List Nat)
    (decryptFn : List Nat → Except DecryptError (List Nat)) (encEnabled : Bool)
    (v : Vault) (path : String) (fid : String) (data : List Nat)
    (hdec : (if encEnabled then decryptFn (download fid)
             else Except.ok (download fid)) = Except.ok data) :
    (∀ localData, lookupFile v.files path = some localData →
      hashFn localData = hashFn data →
      handleDownload hashFn download decryptFn encEnabled v path (some fid) =
        Except.ok (v, [RemoteCall.fixHash fid (hashFn localData)], false)) ∧
    (∀ localData, lookupFile v.files path = some localData →
      hashFn localData ≠ hashFn data →
      ∃ v2, handleDownload hashFn download decryptFn encEnabled v path (some fid) =
          Except.ok (v2, [], true) ∧
        Vault.getFile v2 path = some data ∧
        (∀ q, q ≠ path → Vault.getFile v2 q = Vault.getFile v q) ∧
        v2.folders = v.folders) ∧
    (lookupFile v.files path = none →
      ∃ v2, handleDownload hashFn download decryptFn encEnabled v path (some fid) =
          Except.ok (v2, [], true) ∧
        Vault.getFile v2 path = some data ∧
        (∀ q, q ≠ path → Vault.getFile v2 q = Vault.getFile v q) ∧
        (∀ d, parentDir path = some d →
          (lookupFile v.files d).isSome = true ∨ d ∈ v2.folders)) := by
  refine ⟨?_, ?_, ?_⟩
  · intro localData hl heq
    simp only [handleDownload, hdec, hl, if_pos heq]
  · intro localData hl hne
    refine ⟨{ v with files := modifyFileList v.files path data }, ?_, ?_, ?_, rfl⟩
    · simp only [handleDownload, hdec, hl, if_neg hne]
    · exact lookupFile_modify_self (by rw [hl]; rfl)
    · intro q hq
      exact lookupFile_modify_ne hq
  · intro hl
    refine ⟨{ ensureDirectory v path with
        files := (ensureDirectory v path).files ++ [(path, data)] }, ?_, ?_, ?_, ?_⟩
    · simp only [handleDownload, hdec, hl]
    · show lookupFile ((ensureDirectory v path).files ++ [(path, data)]) path = some data
      rw [ensureDirectory_files]
      exact lookupFile_append_self hl
    · intro q hq
      show lookupFile ((ensureDirectory v path).files ++ [(path, data)]) q =
        lookupFile v.files q
      rw [ensureDirectory_files]
      exact lookupFile_append_ne hq
    · intro d hd
      show (lookupFile v.files d).isSome = true ∨ d ∈ (ensureDirectory v path).folders
      unfold ensureDirectory
      rw [hd]
      dsimp only
      by_cases hex : ((lookupFile v.files d).isSome || v.folders.contains d) = true
      · rw [if_pos hex]
        rcases Bool.or_eq_true_iff.mp hex with h | h
        · exact Or.inl h
        · exact Or.inr (by simpa using h)
      · rw [if_neg hex]
        exact Or.inr (by simp)

/-- Witness for download_skip_or_write: with digest = decimal length, a
local file of matching digest triggers only the fix-hash call; a differing
local file is overwritten; a missing nested file is created along with its
parent folder. -/
theorem download_skip_or_write_witness :
    (handleDownload (fun l => toString l.length) (fun _ => [5, 6])
        (fun d => Except.ok d) false ⟨[("a.md", [7, 8])], []⟩ "a.md" (some "f1") =
      Except.ok (⟨[("a.md", [7, 8])], []⟩, [RemoteCall.fixHash "f1" "2"], false)) ∧
    (∃ v2, handleDownload (fun l => toString l.length) (fun _ => [5, 6])
        (fun d => Except.ok d) false ⟨[("a.md", [7])], []⟩ "a.md" (some "f1") =
          Except.ok (v2, [], true) ∧
      Vault.getFile v2 "a.md" = some [5, 6] ∧
      (∀ q, q ≠ "a.md" → Vault.getFile v2 q = Vault.getFile ⟨[("a.md", [7])], []⟩ q) ∧
      v2.folders = ([] : List String)) ∧
    (∃ v2, handleDownload (fun l => toString l.length) (fun _ => [5, 6])
        (fun d => Except.ok d) false ⟨[], []⟩ "dir/b.md" (some "f1") =
          Except.ok (v2, [], true) ∧
      Vault.getFile v2 "dir/b.md" = some [5, 6] ∧
      (∀ q, q ≠ "dir/b.md" → Vault.getFile v2 q = Vault.getFile ⟨[], []⟩ q) ∧
      (∀ d, parentDir "dir/b.md" = some d →
        (lookupFile ([] : List (String × List Nat)) d).isSome = true ∨
          d ∈ v2.folders)) := by
  refine ⟨?_, ?_, ?_⟩
  · exact (download_skip_or_write (fun l => toString l.length) (fun _ => [5, 6])
      (fun d => Except.ok d) false ⟨[("a.md", [7, 8])], []⟩ "a.md" "f1" [5, 6]
      rfl).1 [7, 8] rfl rfl
  · exact (download_skip_or_write (fun l => toString l.length) (fun _ => [5, 6])
      (fun d => Except.ok d) false ⟨[("a.md", [7])], []⟩ "a.md" "f1" [5, 6]
      rfl).2.1 [7] rfl (by decide)
  · exact (download_skip_or_write (fun l => toString l.length) (fun _ => [5, 6])
      (fun d => Except.ok d) false ⟨[], []⟩ "dir/b.md" "f1" [5, 6]
      rfl).2.2 rfl

/-- C8: handleDelete removes the local file at the instruction's path when
present, issues no remote-store call at all (in particular none to the
delete endpoint), and leaves every other local file and all folders
untouched. -/
theorem delete_local_only (v : Vault) (p : String)
    (hnd : (v.files.map Prod.fst).Nodup) :
    (handleDelete v p).2 = [] ∧
    Vault.getFile (handleDelete v p).1 p = none ∧
    (∀ q, q ≠ p → Vault.getFile (handleDelete v p).1 q = Vault.getFile v q) ∧
    (handleDelete v p).1.folders = v.folders := by
  cases hl : lookupFile v.files p with
  | none =>
    have hde : handleDelete v p = (v, []) := by
      unfold handleDelete
      rw [hl]
    rw [hde]
    exact ⟨rfl, hl, fun q hq => rfl, rfl⟩
  | some d =>
    have hde : handleDelete v p =
        ({ v with files := removeFileList v.files p }, []) := by
      unfold handleDelete
      rw [hl]
    rw [hde]
    exact ⟨rfl, lookupFile_remove_self hnd,
      fun q hq => lookupFile_remove_ne hq, rfl⟩

/-- Witness for delete_local_only: deleting b.md removes it, keeps a.md and
the folder list, and issues no remote call. -/
theorem delete_local_only_witness :
    (handleDelete ⟨[("a.md", [1]), ("b.md", [2])], ["dir"]⟩ "b.md").2 = [] ∧
    Vault.getFile (handleDelete ⟨[("a.md", [1]), ("b.md", [2])], ["dir"]⟩ "b.md").1
        "b.md" = none ∧
    (∀ q, q ≠ "b.md" →
      Vault.getFile (handleDelete ⟨[("a.md", [1]), ("b.md", [2])], ["dir"]⟩ "b.md").1 q
        = Vault.getFile ⟨[("a.md", [1]), ("b.md", [2])], ["dir"]⟩ q) ∧
    (handleDelete ⟨[("a.md", [1]), ("b.md", [2])], ["dir"]⟩ "b.md").1.folders
      = ["dir"] :=
  delete_local_only ⟨[("a.md", [1]), ("b.md", [2])], ["dir"]⟩ "b.md" (by decide)

/-- Witness for retry_policy: an operation that always fails with HTTP 404
is invoked once with no delays; one that always fails with HTTP 500 is
invoked three times with delays 2000 ms and 4000 ms and surfaces the last
error. -/
theorem retry_policy_witness :
    withRetry (fun _ => (Except.error ⟨some 404⟩ : Except ApiFailure Nat)) =
      (Except.error ⟨some 404⟩, 1, []) ∧
    withRetry (fun _ => (Except.error ⟨some 500⟩ : Except ApiFailure Nat)) =
      (Except.error ⟨some 500⟩, 3, [2000, 4000]) := by
  constructor
  · exact (retry_policy (fun _ => Except.error ⟨some 404⟩)
      ⟨some 404⟩ ⟨some 404⟩ ⟨some 404⟩).1 rfl (by decide)
  · exact (retry_policy (fun _ => Except.error ⟨some 500⟩)
      ⟨some 500⟩ ⟨some 500⟩ ⟨some 500⟩).2.1 rfl (by decide) rfl (by decide)
      rfl (by decide)

end CloudSync
